import Mathlib

set_option maxHeartbeats 1000000

/-!
Shallow embedding of the delayed-field identifier exchange and
resource-group finalization layer of a parallel block executor
(source files `executor_utilities.rs` and `value_exchange.rs`).

Keys, tags and identifiers are modelled as `Nat`; byte strings as
`List Nat`; a Rust `panic!`/`expect` is modelled by an outer `Option`
(`none` = process panic); fallible Rust functions return `Except`.
-/

/-- A fatal invariant-violation error (`PanicError` in the source),
carrying a diagnostic message. -/
abbrev PanicError := String

/-- Mirrors `code_invariant_error` from the aggregator types. -/
def code_invariant_error (msg : String) : PanicError := msg

/-- Modelled from the spec: the recoverable reason to abandon parallel
execution (`IntentionalFallbackToSequential`); its enum lives outside the
embedded files, and only the resource-group variant is exercised here. -/
inductive IntentionalFallbackToSequential where
  | resourceGroupError (msg : String)
deriving DecidableEq

/-- Mirrors `PanicOr<T>`: either a fatal invariant violation or a
non-fatal domain error. -/
inductive PanicOr (α : Type) where
  | codeInvariantError (e : PanicError)
  | or (a : α)
deriving DecidableEq

/-- Mirrors `resource_group_error` (`executor_utilities.rs`): wraps a
message into the non-fatal fallback variant (the `error!` log call has no
modelled effect). -/
def resource_group_error (msg : String) :
    PanicOr IntentionalFallbackToSequential :=
  PanicOr.or (IntentionalFallbackToSequential.resourceGroupError msg)

/-- Modelled from the spec: the executor task error type (`E::Error`);
outside the embedded files. Per the spec it distinguishes the recoverable
fallback signal from a fatal invariant violation. -/
inductive BlockError where
  | fallbackToSequential (e : PanicOr IntentionalFallbackToSequential)
  | fatalError (e : PanicError)
deriving DecidableEq

/-- Transformation errors of the value-exchange hooks
(`TransformationError` in `move-vm-types`), carrying a message. -/
abbrev TransformationError := String

/-- Modelled from the spec: a transaction write op (`T::Value`, i.e. the
`TransactionWrite` implementation in `aptos-types`, outside the embedded
files). A write either creates or modifies a slot with bytes and
metadata, or deletes it. -/
inductive WriteOp where
  | creation (bytes : List Nat) (meta : Nat)
  | modification (bytes : List Nat) (meta : Nat)
  | deletion (meta : Nat)
deriving DecidableEq

namespace WriteOp

/-- Mirrors `TransactionWrite::is_deletion`. -/
def is_deletion : WriteOp → Bool
  | .deletion _ => true
  | _ => false

/-- Mirrors `TransactionWrite::bytes` (deletions carry no bytes). -/
def bytes : WriteOp → Option (List Nat)
  | .creation b _ => some b
  | .modification b _ => some b
  | .deletion _ => none

/-- Mirrors `TransactionWrite::extract_raw_bytes` (a clone of the
bytes, absent for deletions). -/
def extract_raw_bytes (v : WriteOp) : Option (List Nat) := v.bytes

/-- Mirrors `TransactionWrite::set_bytes`; a deletion has no bytes slot
to overwrite. -/
def set_bytes (v : WriteOp) (b : List Nat) : WriteOp :=
  match v with
  | .creation _ m => .creation b m
  | .modification _ m => .modification b m
  | .deletion m => .deletion m

/-- Mirrors `TransactionWrite::as_state_value_metadata`, present exactly
for the non-deletion ops. -/
def as_state_value_metadata : WriteOp → Option Nat
  | .creation _ m => some m
  | .modification _ m => some m
  | .deletion _ => none

/-- Mirrors `TransactionWrite::convert_read_to_modification`: a value
that was read back can be replayed as a modification; a deletion cannot. -/
def convert_read_to_modification : WriteOp → Option WriteOp
  | .creation b m => some (.modification b m)
  | .modification b m => some (.modification b m)
  | .deletion _ => none

end WriteOp

/-- Identifier-mapping kinds of delayed fields
(`IdentifierMappingKind` in `move-core-types`). -/
inductive IdentifierMappingKind where
  | aggregator
  | snapshot
  | derivedString
deriving DecidableEq

/-- Modelled from the spec: the fragment of `MoveTypeLayout` relevant to
delayed fields: integer widths, byte strings, structs, and the
`Native(kind, layout)` marker for delayed-field positions. -/
inductive MoveLayout where
  | u64L
  | u128L
  | bytesL
  | structL (fields : List MoveLayout)
  | nativeL (kind : IdentifierMappingKind) (inner : MoveLayout)

/-- Modelled from the spec: the corresponding fragment of Move runtime
values. -/
inductive MoveValue where
  | u64V (n : Nat)
  | u128V (n : Nat)
  | bytesV (bs : List Nat)
  | structV (fields : List MoveValue)

/-- Mirrors `DelayedFieldValue` of the aggregator crate: an aggregator
value, a snapshot value, or a derived byte string. -/
inductive DelayedFieldValue where
  | aggregator (n : Nat)
  | snapshot (n : Nat)
  | derived (bs : List Nat)
deriving DecidableEq

/-- Mirrors `ValueWithLayout<T::Value>` of the multi-version map types:
raw storage bytes, or an exchanged value with an optional layout. -/
inductive ValueWithLayout where
  | rawFromStorage (v : WriteOp)
  | exchanged (v : WriteOp) (layout : Option MoveLayout)

/-! Byte-level helpers: little-endian fixed-width encodings and ULEB128,
as used by the canonical (BCS-style) binary encoding. -/

/-- Little-endian bytes of `n`, exactly `w` bytes wide. -/
def leBytes : Nat → Nat → List Nat
  | 0, _ => []
  | w + 1, n => (n % 256) :: leBytes w (n / 256)

/-- Little-endian decoding of a byte list. -/
def leDecode : List Nat → Nat
  | [] => 0
  | b :: rest => b + 256 * leDecode rest

/-- Splits off the first `n` entries, failing when fewer are present. -/
def takeN : Nat → List Nat → Option (List Nat × List Nat)
  | 0, bs => some ([], bs)
  | _ + 1, [] => none
  | n + 1, b :: bs =>
    match takeN n bs with
    | none => none
    | some (pre, post) => some (b :: pre, post)

/-- ULEB128 encoding of a natural number. -/
def ulebEncode (n : Nat) : List Nat :=
  if h : n < 128 then [n]
  else (n % 128 + 128) :: ulebEncode (n / 128)
decreasing_by
  exact Nat.div_lt_self (by omega) (by omega)

/-- ULEB128 decoding, returning the value and remaining bytes. -/
def ulebDecode : List Nat → Option (Nat × List Nat)
  | [] => none
  | b :: rest =>
    if b < 128 then some (b, rest)
    else
      match ulebDecode rest with
      | none => none
      | some (n, r) => some ((b - 128) + 128 * n, r)

/-! Small set and association-map models: a `HashSet` is a duplicate-free
list; a `BTreeMap` is a list of pairs sorted strictly by key. -/

/-- Set insertion for the `HashSet` model. -/
def insertSet (x : Nat) (s : List Nat) : List Nat :=
  if x ∈ s then s else x :: s

/-- Folds `insertSet` over a list of new elements. -/
def appendSet (s : List Nat) : List Nat → List Nat
  | [] => s
  | x :: xs => appendSet (insertSet x s) xs

/-- First-match lookup in an association list. -/
def lookupA {α : Type} : List (Nat × α) → Nat → Option α
  | [], _ => none
  | (k, v) :: rest, k' => if k' = k then some v else lookupA rest k'

/-- Insertion into a key-sorted association list, overwriting an equal
key (the `BTreeMap::insert` model). -/
def insertSorted {α : Type} (k : Nat) (v : α) :
    List (Nat × α) → List (Nat × α)
  | [] => [(k, v)]
  | (k', v') :: rest =>
    if k < k' then (k, v) :: (k', v') :: rest
    else if k = k' then (k, v) :: rest
    else (k', v') :: insertSorted k v rest

/-- Keys strictly increase: the well-formedness of the `BTreeMap` model. -/
def sortedKeys {α : Type} (m : List (Nat × α)) : Prop :=
  List.Pairwise (fun a b => a.1 < b.1) m

/-! Identifier encoding: how a delayed-field identifier (`T::Identifier`,
a 64-bit id) is embedded into a Move value of the field's layout.
Mirrors `DelayedFieldID::try_into_move_value` /
`try_from_move_value` of the aggregator types, modelled from the spec
(the concrete codec lives outside the embedded files). -/

/-- Encodes identifier `id` as a Move value under `layout`
(`id.try_into_move_value(layout)`). -/
def encodeId (id : Nat) : MoveLayout → Except TransformationError MoveValue
  | .u64L => .ok (.u64V id)
  | .u128L => .ok (.u128V id)
  | .bytesL =>
    if id < 2 ^ 64 then .ok (.bytesV (leBytes 8 id))
    else .error "identifier exceeds u64 width"
  | _ => .error "unsupported layout for identifier"

/-- Decodes an identifier from a Move value under `layout`
(`T::Identifier::try_from_move_value(layout, value, &())`). -/
def decodeId : MoveLayout → MoveValue → Except TransformationError Nat
  | .u64L, .u64V n => .ok n
  | .u128L, .u128V n => .ok n
  | .bytesL, .bytesV bs =>
    if bs.length = 8 ∧ ∀ b ∈ bs, b < 256 then .ok (leDecode bs)
    else .error "malformed identifier bytes"
  | _, _ => .error "value does not decode as an identifier"

/-- Mirrors `DelayedFieldValue::try_from_move_value(layout, value, kind)`:
lifts a literal Move value into a delayed-field value according to the
mapping kind. -/
def tryFromMoveValueDFV (layout : MoveLayout) (v : MoveValue)
    (kind : IdentifierMappingKind) :
    Except TransformationError DelayedFieldValue :=
  match kind, layout, v with
  | .aggregator, .u64L, .u64V n => .ok (.aggregator n)
  | .aggregator, .u128L, .u128V n => .ok (.aggregator n)
  | .snapshot, .u64L, .u64V n => .ok (.snapshot n)
  | .snapshot, .u128L, .u128V n => .ok (.snapshot n)
  | .derivedString, .bytesL, .bytesV bs => .ok (.derived bs)
  | _, _, _ => .error "value and layout do not match the mapping kind"

/-- Mirrors `DelayedFieldValue::try_into_move_value(layout)`: lowers a
delayed-field value back to a literal Move value of the given layout. -/
def tryIntoMoveValueDFV (layout : MoveLayout) (dv : DelayedFieldValue) :
    Except TransformationError MoveValue :=
  match layout, dv with
  | .u64L, .aggregator n => .ok (.u64V n)
  | .u64L, .snapshot n => .ok (.u64V n)
  | .u128L, .aggregator n => .ok (.u128V n)
  | .u128L, .snapshot n => .ok (.u128V n)
  | .bytesL, .derived bs => .ok (.bytesV bs)
  | _, _ => .error "delayed value does not fit the layout"

/-! Plain deserialization of bytes under a layout (the value-serde layer,
modelled from the spec): delayed-field positions hold the literal bytes of
their inner layout. -/

mutual

/-- Deserializes one value of layout `l` from the front of `b`. -/
def des : MoveLayout → List Nat → Option (MoveValue × List Nat)
  | .u64L, b =>
    match takeN 8 b with
    | none => none
    | some (pre, post) => some (.u64V (leDecode pre), post)
  | .u128L, b =>
    match takeN 16 b with
    | none => none
    | some (pre, post) => some (.u128V (leDecode pre), post)
  | .bytesL, b =>
    match ulebDecode b with
    | none => none
    | some (n, rest) =>
      match takeN n rest with
      | none => none
      | some (pre, post) => some (.bytesV pre, post)
  | .structL fs, b =>
    match desFields fs b with
    | none => none
    | some (vs, rest) => some (.structV vs, rest)
  | .nativeL _ inner, b => des inner b

/-- Deserializes a sequence of struct fields. -/
def desFields : List MoveLayout → List Nat → Option (List MoveValue × List Nat)
  | [], b => some ([], b)
  | f :: fs, b =>
    match des f b with
    | none => none
    | some (v, rest) =>
      match desFields fs rest with
      | none => none
      | some (vs, rest') => some (v :: vs, rest')

end

/-! The deserialize-and-replace traversal
(`deserialize_and_replace_values_with_ids` in `move-vm-types`, modelled
from the spec): deserialization that, at every `Native`-marked position,
hands the literally deserialized value to a mapping's
`value_to_identifier` hook, threading the mapping's state. A mapping
error or malformed bytes make the whole traversal fail (`Option`). -/

mutual

/-- Deserializes under `l`, applying mapping hook `f` (with state `σ`) at
delayed-field positions. -/
def desR {σ : Type}
    (f : σ → IdentifierMappingKind → MoveLayout → MoveValue →
      Except TransformationError (MoveValue × σ)) :
    MoveLayout → σ → List Nat → Option (MoveValue × σ × List Nat)
  | .u64L, s, b =>
    match takeN 8 b with
    | none => none
    | some (pre, post) => some (.u64V (leDecode pre), s, post)
  | .u128L, s, b =>
    match takeN 16 b with
    | none => none
    | some (pre, post) => some (.u128V (leDecode pre), s, post)
  | .bytesL, s, b =>
    match ulebDecode b with
    | none => none
    | some (n, rest) =>
      match takeN n rest with
      | none => none
      | some (pre, post) => some (.bytesV pre, s, post)
  | .structL fs, s, b =>
    match desRFields f fs s b with
    | none => none
    | some (vs, s', rest) => some (.structV vs, s', rest)
  | .nativeL kind inner, s, b =>
    match des inner b with
    | none => none
    | some (v, rest) =>
      match f s kind inner v with
      | .error _ => none
      | .ok (v', s') => some (v', s', rest)

/-- Field-sequence version of `desR`. -/
def desRFields {σ : Type}
    (f : σ → IdentifierMappingKind → MoveLayout → MoveValue →
      Except TransformationError (MoveValue × σ)) :
    List MoveLayout → σ → List Nat → Option (List MoveValue × σ × List Nat)
  | [], s, b => some ([], s, b)
  | l :: ls, s, b =>
    match desR f l s b with
    | none => none
    | some (v, s', rest) =>
      match desRFields f ls s' rest with
      | none => none
      | some (vs, s'', rest') => some (v :: vs, s'', rest')

end

/-! Reference semantics for identifier extraction: the identifiers
embedded in an already-deserialized value, collected purely. -/

mutual

/-- Collects the identifiers at delayed-field positions of `v` under `l`;
fails when a position does not decode as an identifier or the value does
not fit the layout. -/
def collectIds : MoveLayout → MoveValue → Option (List Nat)
  | .u64L, .u64V _ => some []
  | .u128L, .u128V _ => some []
  | .bytesL, .bytesV _ => some []
  | .structL fs, .structV vs => collectIdsFields fs vs
  | .nativeL _ inner, v =>
    match decodeId inner v with
    | .error _ => none
    | .ok id => some [id]
  | _, _ => none

/-- Field-sequence version of `collectIds`. -/
def collectIdsFields : List MoveLayout → List MoveValue → Option (List Nat)
  | [], [] => some []
  | l :: ls, v :: vs =>
    match collectIds l v with
    | none => none
    | some ids =>
      match collectIdsFields ls vs with
      | none => none
      | some ids' => some (ids ++ ids')
  | _, _ => none

end

/-! The per-attempt view state and the identifier-exchange engine
(`value_exchange.rs`). -/

/-- Modelled from the spec: `ViewState` routes delayed-field storage
either to the shared multi-version store (`Sync`, read via
`read_latest_committed_value(id, txn_idx, AfterCurrentTxn)`) or to a
private per-attempt map (`Unsync`, read via `read_delayed_field`). Within
one attempt both behave as a key-value map from identifier to
delayed-field value. -/
inductive ViewStateM where
  | sync (m : List (Nat × DelayedFieldValue))
  | unsync (m : List (Nat × DelayedFieldValue))

/-- Mirrors `set_delayed_field_value(id, value)` on either view. -/
def setDFV (vs : ViewStateM) (id : Nat) (dv : DelayedFieldValue) : ViewStateM :=
  match vs with
  | .sync m => .sync ((id, dv) :: m)
  | .unsync m => .unsync ((id, dv) :: m)

/-- Reads the delayed-field value stored for `id` within the attempt
(Sync: committed value at position after the current transaction;
Unsync: the private map). -/
def readDFV (vs : ViewStateM) (id : Nat) : Option DelayedFieldValue :=
  match vs with
  | .sync m => lookupA m id
  | .unsync m => lookupA m id

/-- State of one `TemporaryValueToIdentifierMapping` instance: the
attempt's view, the identifier counter of `generate_delayed_field_id`,
and the `RefCell`-held touched set `delayed_field_keys`. -/
structure ExchState where
  view : ViewStateM
  nextId : Nat
  touched : List Nat

/-- Mirrors `TemporaryValueToIdentifierMapping::value_to_identifier`:
generates a fresh identifier, lifts the literal into a
`DelayedFieldValue` by `kind`, stores it in the view, records the
identifier in the touched set, and returns the identifier encoded under
`layout`. The state is returned alongside the result (on an error the
conversion may already have advanced the counter or stored the value,
matching the statement order of the source). -/
def value_to_identifier (s : ExchState) (kind : IdentifierMappingKind)
    (layout : MoveLayout) (value : MoveValue) :
    Except TransformationError MoveValue × ExchState :=
  let id := s.nextId
  let s₁ : ExchState := { s with nextId := id + 1 }
  match tryFromMoveValueDFV layout value kind with
  | .error e => (.error e, s₁)
  | .ok base_value =>
    let s₂ : ExchState :=
      { s₁ with
        view := setDFV s₁.view id base_value
        touched := insertSet id s₁.touched }
    (encodeId id layout, s₂)

/-- Mirrors `TemporaryValueToIdentifierMapping::identifier_to_value`:
decodes the identifier, records it in the touched set, and resolves it
through the view; a missing value is the fatal `expect` (outer `none`). -/
def identifier_to_value (s : ExchState) (layout : MoveLayout)
    (identifier_value : MoveValue) :
    Option (Except TransformationError MoveValue × ExchState) :=
  match decodeId layout identifier_value with
  | .error e => some (.error e, s)
  | .ok id =>
    let s₁ : ExchState := { s with touched := insertSet id s.touched }
    match readDFV s₁.view id with
    | none => none
    | some dv => some (tryIntoMoveValueDFV layout dv, s₁)

/-- Mirrors `TemporaryExtractIdentifiersMapping::value_to_identifier`:
decodes the identifier, records it in the touched set (the whole state),
and re-encodes it unchanged; no view is consulted and no identifier is
minted. -/
def extract_value_to_identifier (s : List Nat)
    (_kind : IdentifierMappingKind) (layout : MoveLayout)
    (value : MoveValue) :
    Except TransformationError (MoveValue × List Nat) :=
  match decodeId layout value with
  | .error e => .error e
  | .ok id =>
    match encodeId id layout with
    | .error e => .error e
    | .ok v' => .ok (v', insertSet id s)

/-- Mirrors `TemporaryExtractIdentifiersMapping::identifier_to_value`:
identical to the other direction. -/
def extract_identifier_to_value (s : List Nat) (layout : MoveLayout)
    (value : MoveValue) :
    Except TransformationError (MoveValue × List Nat) :=
  match decodeId layout value with
  | .error e => .error e
  | .ok id =>
    match encodeId id layout with
    | .error e => .error e
    | .ok v' => .ok (v', insertSet id s)

/-- Mirrors `extract_identifiers_from_value`: runs the
deserialize-and-replace traversal with the extract mapping over the whole
byte blob and returns the mapping's accumulated identifier set; a failed
traversal is an `anyhow` error. -/
def extract_identifiers_from_value (bytes : List Nat)
    (layout : MoveLayout) : Except String (List Nat) :=
  match desR extract_value_to_identifier layout [] bytes with
  | some (_patched_value, s, []) => .ok s
  | _ => .error "Failed to deserialize resource during id replacement"

/-- Mirrors `does_value_need_exchange`: `some none` is the Rust `None`
(no exchange needed), `some (some _)` the Rust `Some(_)`, and the outer
`none` the `expect` panic on missing metadata. -/
def does_value_need_exchange (value : WriteOp) (layout : MoveLayout)
    (delayed_write_set_ids : List Nat) (key : Nat) :
    Option (Option (Except PanicError (Nat × Nat × MoveLayout))) :=
  match value.bytes with
  | none => some none
  | some b =>
    match extract_identifiers_from_value b layout with
    | .ok identifiers_in_read =>
      if delayed_write_set_ids.all (fun x => decide (x ∉ identifiers_in_read)) then
        some none
      else
        match value.as_state_value_metadata with
        | none => none
        | some m => some (some (.ok (key, m, layout)))
    | .error _e =>
      some (some (.error (code_invariant_error
        "Cannot extract identifiers from value that identifiers were exchanged into before")))

/-! The executor utilities (`executor_utilities.rs`). -/

/-- Mirrors `map_finalized_group`: enforces the read-exchange/deletion
and emptiness/deletion invariants, signalling fallback to sequential on
violation or on an errored finalized group. -/
def map_finalized_group (group_key : Nat)
    (finalized_group : Except String (List (Nat × ValueWithLayout)))
    (metadata_op : WriteOp) (is_read_needing_exchange : Bool) :
    Except BlockError (Nat × WriteOp × List (Nat × ValueWithLayout)) :=
  let metadata_is_deletion := metadata_op.is_deletion
  match finalized_group with
  | .ok fg =>
    if is_read_needing_exchange && metadata_is_deletion then
      .error (.fallbackToSequential (resource_group_error
        "Value only read and exchanged, but metadata op is Deletion"))
    else if fg.isEmpty != metadata_is_deletion then
      .error (.fallbackToSequential (resource_group_error
        "Group is empty but op is deletion mismatch in parallel execution"))
    else
      .ok (group_key, metadata_op, fg)
  | .error _e =>
    .error (.fallbackToSequential (resource_group_error
      "Error committing resource group"))

/-- Largest sequence length the canonical encoding accepts
(`MAX_SEQUENCE_LENGTH` of the bcs crate). -/
def MAX_SEQUENCE_LENGTH : Nat := 2147483647

/-- Canonical encoding of a byte string: ULEB128 length then the bytes;
over-long input is a serialization error. -/
def bcsBytes (b : List Nat) : Except String (List Nat) :=
  if b.length ≤ MAX_SEQUENCE_LENGTH then .ok (ulebEncode b.length ++ b)
  else .error "ExceededMaxLen"

/-- Canonical encoding of a tag (model choice for the generic `T::Tag`). -/
def bcsTag (t : Nat) : List Nat := ulebEncode t

/-- Canonical encoding of the entries of a key-sorted tag-to-bytes map
(`bcs::to_bytes` on a `BTreeMap<T::Tag, Bytes>`). -/
def bcsMapEntries : List (Nat × List Nat) → Except String (List Nat)
  | [] => .ok []
  | (t, b) :: rest =>
    match bcsBytes b with
    | .error e => .error e
    | .ok eb =>
      match bcsMapEntries rest with
      | .error e => .error e
      | .ok erest => .ok (bcsTag t ++ eb ++ erest)

/-- Canonical encoding of a key-sorted tag-to-bytes map: ULEB128 entry
count followed by the encoded entries. -/
def bcsMap (m : List (Nat × List Nat)) : Except String (List Nat) :=
  if m.length ≤ MAX_SEQUENCE_LENGTH then
    match bcsMapEntries m with
    | .error e => .error e
    | .ok eb => .ok (ulebEncode m.length ++ eb)
  else .error "ExceededMaxLen"

/-- The tag-to-bytes collection step of `serialize_groups`: extracts each
member's raw bytes (a deletion reaching here is the `expect` panic,
`none`) and collects the pairs into the ordered map. -/
def groupToBtree (acc : List (Nat × List Nat)) :
    List (Nat × WriteOp) → Option (List (Nat × List Nat))
  | [] => some acc
  | (resource_tag, arc_v) :: rest =>
    match arc_v.extract_raw_bytes with
    | none => none
    | some bytes => groupToBtree (insertSorted resource_tag bytes acc) rest

/-- One group of `serialize_groups`: build the ordered map, serialize it
canonically (failure becomes the non-fatal fallback signal), and set the
blob as the metadata op's bytes. -/
def serializeGroup (g : Nat × WriteOp × List (Nat × WriteOp)) :
    Option (Except (PanicOr IntentionalFallbackToSequential) (Nat × WriteOp)) :=
  match groupToBtree [] g.2.2 with
  | none => none
  | some btree =>
    match bcsMap btree with
    | .error e => some (.error (resource_group_error
        ("Unexpected resource group error " ++ e)))
    | .ok group_bytes => some (.ok (g.1, g.2.1.set_bytes group_bytes))

/-- Mirrors `serialize_groups`: serializes every finalized group,
stopping at the first failure (`collect` over `Result`). -/
def serialize_groups :
    List (Nat × WriteOp × List (Nat × WriteOp)) →
    Option (Except (PanicOr IntentionalFallbackToSequential)
      (List (Nat × WriteOp)))
  | [] => some (.ok [])
  | g :: rest =>
    match serializeGroup g with
    | none => none
    | some (.error e) => some (.error e)
    | some (.ok kv) =>
      match serialize_groups rest with
      | none => none
      | some (.error e) => some (.error e)
      | some (.ok kvs) => some (.ok (kv :: kvs))

/-- Mirrors `gen_id_start_value`: a bounded random draw (`gen_range(1 +
offset, 1000 + offset)`, modelled as `lo + r % (hi - lo)` for an
arbitrary draw `r`) scaled by one million, in `u32` arithmetic. -/
def gen_id_start_value (sequential : Bool) (r : Nat) : Nat :=
  let offset := if sequential then 0 else 1000
  (((1 + offset) + r % 999) * 1000000) % 2 ^ 32

/-- Mirrors `replace_ids_with_values`: converts the read value to a
modification, requires bytes, and resolves the identifier-bearing bytes
through the view (`replace_identifiers_with_values`, passed here as
`resolve`; its failure hits the source's `unwrap`, the outer `none`). -/
def replace_ids_with_values
    (resolve : List Nat → MoveLayout → Option (List Nat))
    (value : WriteOp) (layout : MoveLayout) :
    Option (Except PanicError WriteOp) :=
  match value.convert_read_to_modification with
  | none => some (.error (code_invariant_error
      "Value to be exchanged cannot be transformed to modification"))
  | some v =>
    match v.bytes with
    | none => some (.error (code_invariant_error
        "Value to be exchanged does not have bytes"))
    | some value_bytes =>
      match resolve value_bytes layout with
      | none => none
      | some patched_bytes => some (.ok (v.set_bytes patched_bytes))

/-- The per-member step of `map_id_to_values_in_group_writes`: raw and
layout-less exchanged values pass through; exchanged values with a layout
are resolved. -/
def patchGroupValue
    (resolve : List Nat → MoveLayout → Option (List Nat)) :
    ValueWithLayout → Option (Except PanicError WriteOp)
  | .rawFromStorage v => some (.ok v)
  | .exchanged v none => some (.ok v)
  | .exchanged v (some layout) => replace_ids_with_values resolve v layout

/-- The inner loop of `map_id_to_values_in_group_writes` over one group's
members, in order, short-circuiting on the first failure. -/
def patchGroupVec
    (resolve : List Nat → MoveLayout → Option (List Nat)) :
    List (Nat × ValueWithLayout) →
    Option (Except PanicError (List (Nat × WriteOp)))
  | [] => some (.ok [])
  | (tag, vwl) :: rest =>
    match patchGroupValue resolve vwl with
    | none => none
    | some (.error e) => some (.error e)
    | some (.ok v) =>
      match patchGroupVec resolve rest with
      | none => none
      | some (.error e) => some (.error e)
      | some (.ok vs) => some (.ok ((tag, v) :: vs))

/-- Mirrors `map_id_to_values_in_group_writes`: patches every group's
member vector, preserving group keys and metadata ops. -/
def map_id_to_values_in_group_writes
    (resolve : List Nat → MoveLayout → Option (List Nat)) :
    List (Nat × WriteOp × List (Nat × ValueWithLayout)) →
    Option (Except PanicError (List (Nat × WriteOp × List (Nat × WriteOp))))
  | [] => some (.ok [])
  | (group_key, group_metadata_op, resource_vec) :: rest =>
    match patchGroupVec resolve resource_vec with
    | none => none
    | some (.error e) => some (.error e)
    | some (.ok patched_resource_vec) =>
      match map_id_to_values_in_group_writes resolve rest with
      | none => none
      | some (.error e) => some (.error e)
      | some (.ok out) =>
        some (.ok ((group_key, group_metadata_op, patched_resource_vec) :: out))

/-- The accumulator loop of `map_id_to_values_in_write_set`: layout-less
and deletion writes are skipped; a qualifying write with no bytes or a
failed resolution is the source's `unreachable!` panic (`none`); others
are patched and inserted into the ordered output map. -/
def mivwsGo (resolve : List Nat → MoveLayout → Option (List Nat))
    (acc : List (Nat × WriteOp)) :
    List (Nat × (WriteOp × Option MoveLayout)) →
    Option (List (Nat × WriteOp))
  | [] => some acc
  | (key, (write_op, layoutOpt)) :: rest =>
    match layoutOpt with
    | none => mivwsGo resolve acc rest
    | some layout =>
      if write_op.is_deletion then mivwsGo resolve acc rest
      else
        match write_op.bytes with
        | none => none
        | some write_op_bytes =>
          match resolve write_op_bytes layout with
          | none => none
          | some patched_bytes =>
            mivwsGo resolve
              (insertSorted key (write_op.set_bytes patched_bytes) acc) rest

/-- Mirrors `map_id_to_values_in_write_set`: walks the resource write
set, patching delayed-field-bearing writes into an ordered map. -/
def map_id_to_values_in_write_set
    (resolve : List Nat → MoveLayout → Option (List Nat))
    (resource_write_set : List (Nat × (WriteOp × Option MoveLayout))) :
    Option (List (Nat × WriteOp)) :=
  mivwsGo resolve [] resource_write_set

/-! Helper lemmas about the byte-level codecs. -/

theorem leBytes_length (w n : Nat) : (leBytes w n).length = w := by
  induction w generalizing n with
  | zero => rfl
  | succ w ih => simp [leBytes, ih]

theorem leBytes_lt (w n : Nat) : ∀ b ∈ leBytes w n, b < 256 := by
  induction w generalizing n with
  | zero => intro b hb; simp [leBytes] at hb
  | succ w ih =>
    intro b hb
    simp only [leBytes, List.mem_cons] at hb
    rcases hb with h | h
    · omega
    · exact ih _ b h

theorem leDecode_leBytes (w n : Nat) (h : n < 256 ^ w) :
    leDecode (leBytes w n) = n := by
  induction w generalizing n with
  | zero => simp [leBytes, leDecode]; omega
  | succ w ih =>
    have hdiv : n / 256 < 256 ^ w := by
      rw [Nat.div_lt_iff_lt_mul (by omega)]
      calc n < 256 ^ (w + 1) := h
        _ = 256 ^ w * 256 := by rw [Nat.pow_succ]
    simp only [leBytes, leDecode, ih _ hdiv]
    omega

theorem leBytes_leDecode (bs : List Nat) (h : ∀ b ∈ bs, b < 256) :
    leBytes bs.length (leDecode bs) = bs := by
  induction bs with
  | nil => rfl
  | cons b rest ih =>
    have hb : b < 256 := h b (List.mem_cons_self b rest)
    have hrest : ∀ x ∈ rest, x < 256 := fun x hx => h x (List.mem_cons_of_mem b hx)
    simp only [List.length_cons, leBytes, leDecode]
    have h1 : (b + 256 * leDecode rest) % 256 = b := by omega
    have h2 : (b + 256 * leDecode rest) / 256 = leDecode rest := by omega
    rw [h1, h2, ih hrest]

theorem leDecode_lt (bs : List Nat) (h : ∀ b ∈ bs, b < 256) :
    leDecode bs < 256 ^ bs.length := by
  induction bs with
  | nil => simp [leDecode]
  | cons b rest ih =>
    have hb : b < 256 := h b (List.mem_cons_self b rest)
    have hrest := ih (fun x hx => h x (List.mem_cons_of_mem b hx))
    simp only [leDecode, List.length_cons, Nat.pow_succ]
    calc b + 256 * leDecode rest < 256 + 256 * leDecode rest := by omega
      _ = 256 * (leDecode rest + 1) := by ring
      _ ≤ 256 * 256 ^ rest.length := by
          exact Nat.mul_le_mul_left 256 (by omega)
      _ = 256 ^ rest.length * 256 := by ring

/-! Identifier codec round trips. -/

theorem decodeId_encodeId {id : Nat} {L : MoveLayout} {v : MoveValue}
    (h : encodeId id L = .ok v) : decodeId L v = .ok id := by
  cases L with
  | u64L => simp [encodeId] at h; subst h; rfl
  | u128L => simp [encodeId] at h; subst h; rfl
  | bytesL =>
    simp only [encodeId] at h
    split at h
    · rename_i hlt
      simp only [Except.ok.injEq] at h
      subst h
      simp only [decodeId]
      rw [if_pos]
      · rw [leDecode_leBytes 8 id (by norm_num; omega)]
      · exact ⟨leBytes_length 8 id, leBytes_lt 8 id⟩
    · simp at h
  | structL fs => simp [encodeId] at h
  | nativeL k i => simp [encodeId] at h

theorem encodeId_decodeId {id : Nat} {L : MoveLayout} {v : MoveValue}
    (h : decodeId L v = .ok id) : encodeId id L = .ok v := by
  cases L with
  | u64L =>
    cases v with
    | u64V n => simp [decodeId] at h; subst h; rfl
    | u128V n => simp [decodeId] at h
    | bytesV bs => simp [decodeId] at h
    | structV vs => simp [decodeId] at h
  | u128L =>
    cases v with
    | u64V n => simp [decodeId] at h
    | u128V n => simp [decodeId] at h; subst h; rfl
    | bytesV bs => simp [decodeId] at h
    | structV vs => simp [decodeId] at h
  | bytesL =>
    cases v with
    | u64V n => simp [decodeId] at h
    | u128V n => simp [decodeId] at h
    | bytesV bs =>
      simp only [decodeId] at h
      split at h
      · rename_i hc
        simp only [Except.ok.injEq] at h
        obtain ⟨hlen, hbd⟩ := hc
        have hlt : leDecode bs < 2 ^ 64 := by
          have := leDecode_lt bs hbd
          rw [hlen] at this
          norm_num at this ⊢
          omega
        simp only [encodeId]
        rw [if_pos (h ▸ hlt)]
        subst h
        rw [← hlen, leBytes_leDecode bs hbd]
      · simp at h
    | structV vs => simp [decodeId] at h
  | structL fs => cases v <;> simp [decodeId] at h
  | nativeL k i => cases v <;> simp [decodeId] at h

/-! Set and association-map lemmas. -/

theorem mem_insertSet {x y : Nat} {s : List Nat} :
    x ∈ insertSet y s ↔ x = y ∨ x ∈ s := by
  unfold insertSet
  split
  · rename_i hy
    constructor
    · intro h; exact Or.inr h
    · rintro (rfl | h)
      · exact hy
      · exact h
  · simp [List.mem_cons]

theorem insertSet_of_mem {y : Nat} {s : List Nat} (h : y ∈ s) :
    insertSet y s = s := by
  simp [insertSet, h]

theorem mem_appendSet {x : Nat} {s l : List Nat} :
    x ∈ appendSet s l ↔ x ∈ s ∨ x ∈ l := by
  induction l generalizing s with
  | nil => simp [appendSet]
  | cons a l ih =>
    simp only [appendSet, ih, mem_insertSet, List.mem_cons]
    tauto

theorem lookupA_head {α : Type} {k : Nat} {v : α} {m : List (Nat × α)} :
    lookupA ((k, v) :: m) k = some v := by
  simp [lookupA]

/-! Delayed-field value conversion round trip. -/

theorem tryInto_tryFrom {L : MoveLayout} {v : MoveValue}
    {K : IdentifierMappingKind} {dv : DelayedFieldValue}
    (h : tryFromMoveValueDFV L v K = .ok dv) :
    tryIntoMoveValueDFV L dv = .ok v := by
  cases K <;> cases L <;> cases v <;>
    simp_all [tryFromMoveValueDFV, tryIntoMoveValueDFV] <;>
    (try subst h) <;> rfl

/-! Ordered-map insertion lemmas. -/

theorem insertSorted_subset {α : Type} {k : Nat} {v : α}
    {m : List (Nat × α)} {q : Nat × α} (h : q ∈ insertSorted k v m) :
    q = (k, v) ∨ q ∈ m := by
  induction m with
  | nil => simpa [insertSorted] using h
  | cons hd tl ih =>
    obtain ⟨a, w⟩ := hd
    simp only [insertSorted] at h
    split at h
    · rcases List.mem_cons.mp h with h' | h'
      · exact Or.inl h'
      · exact Or.inr h'
    · split at h
      · rcases List.mem_cons.mp h with h' | h'
        · exact Or.inl h'
        · exact Or.inr (List.mem_cons_of_mem _ h')
      · rcases List.mem_cons.mp h with h' | h'
        · exact Or.inr (h' ▸ List.mem_cons_self _ tl)
        · rcases ih h' with h'' | h''
          · exact Or.inl h''
          · exact Or.inr (List.mem_cons_of_mem _ h'')

theorem mem_keys_insertSorted {α : Type} {k x : Nat} {v : α}
    {m : List (Nat × α)} :
    x ∈ (insertSorted k v m).map Prod.fst ↔ x = k ∨ x ∈ m.map Prod.fst := by
  induction m with
  | nil => simp [insertSorted]
  | cons hd tl ih =>
    obtain ⟨a, w⟩ := hd
    simp only [insertSorted]
    split
    · simp [List.mem_cons]
    · split
      · rename_i hlt heq
        simp only [List.map_cons, List.mem_cons, ih]
        subst heq
        tauto
      · simp only [List.map_cons, List.mem_cons, ih]
        tauto

theorem sortedKeys_insertSorted {α : Type} {k : Nat} {v : α}
    {m : List (Nat × α)} (hs : sortedKeys m) :
    sortedKeys (insertSorted k v m) := by
  induction m with
  | nil => simp [insertSorted, sortedKeys]
  | cons hd tl ih =>
    obtain ⟨a, w⟩ := hd
    simp only [sortedKeys, List.pairwise_cons] at hs
    obtain ⟨hhd, htl⟩ := hs
    simp only [insertSorted]
    split
    · rename_i hlt
      simp only [sortedKeys, List.pairwise_cons]
      refine ⟨?_, hhd, htl⟩
      intro q hq
      rcases List.mem_cons.mp hq with rfl | hq'
      · exact hlt
      · exact Nat.lt_trans hlt (hhd q hq')
    · split
      · rename_i hlt heq
        simp only [sortedKeys, List.pairwise_cons]
        exact ⟨fun q hq => heq ▸ hhd q hq, htl⟩
      · rename_i hlt heq
        have hgt : a < k := by omega
        simp only [sortedKeys, List.pairwise_cons]
        refine ⟨?_, ih htl⟩
        intro q hq
        rcases insertSorted_subset hq with rfl | hq'
        · exact hgt
        · exact hhd q hq'

theorem mem_insertSorted {α : Type} {k : Nat} {v : α}
    {m : List (Nat × α)} {q : Nat × α} (hs : sortedKeys m) :
    q ∈ insertSorted k v m ↔ q = (k, v) ∨ (q ∈ m ∧ q.1 ≠ k) := by
  induction m with
  | nil => simp [insertSorted]
  | cons hd tl ih =>
    obtain ⟨a, w⟩ := hd
    simp only [sortedKeys, List.pairwise_cons] at hs
    obtain ⟨hhd, htl⟩ := hs
    have htlgt : ∀ q' ∈ tl, a < (q' : Nat × α).1 := hhd
    simp only [insertSorted]
    split
    · rename_i hlt
      simp only [List.mem_cons]
      constructor
      · rintro (rfl | rfl | hq)
        · exact Or.inl rfl
        · exact Or.inr ⟨Or.inl rfl, by simp; omega⟩
        · have := htlgt _ hq
          exact Or.inr ⟨Or.inr hq, by omega⟩
      · rintro (rfl | ⟨rfl | hq, hne⟩)
        · exact Or.inl rfl
        · exact Or.inr (Or.inl rfl)
        · exact Or.inr (Or.inr hq)
    · split
      · rename_i hlt heq
        subst heq
        simp only [List.mem_cons]
        constructor
        · rintro (rfl | hq)
          · exact Or.inl rfl
          · have := htlgt _ hq
            exact Or.inr ⟨Or.inr hq, by omega⟩
        · rintro (rfl | ⟨rfl | hq, hne⟩)
          · exact Or.inl rfl
          · simp at hne
          · exact Or.inr hq
      · rename_i hlt heq
        have hgt : a < k := by omega
        simp only [List.mem_cons, ih htl]
        constructor
        · rintro (rfl | rfl | ⟨hq, hne⟩)
          · exact Or.inr ⟨Or.inl rfl, by simp; omega⟩
          · exact Or.inl rfl
          · exact Or.inr ⟨Or.inr hq, hne⟩
        · rintro (rfl | ⟨rfl | hq, hne⟩)
          · exact Or.inr (Or.inl rfl)
          · exact Or.inl rfl
          · exact Or.inr (Or.inr ⟨hq, hne⟩)

theorem sorted_eq_of_mem_iff {α : Type} :
    ∀ {m1 m2 : List (Nat × α)}, sortedKeys m1 → sortedKeys m2 →
    (∀ q, q ∈ m1 ↔ q ∈ m2) → m1 = m2 := by
  intro m1
  induction m1 with
  | nil =>
    intro m2 _ _ hiff
    cases m2 with
    | nil => rfl
    | cons hd tl =>
      have := (hiff hd).mpr (List.mem_cons_self hd tl)
      simp at this
  | cons hd1 tl1 ih =>
    intro m2 hs1 hs2 hiff
    cases m2 with
    | nil =>
      have := (hiff hd1).mp (List.mem_cons_self hd1 tl1)
      simp at this
    | cons hd2 tl2 =>
      obtain ⟨a, w⟩ := hd1
      obtain ⟨b, u⟩ := hd2
      simp only [sortedKeys, List.pairwise_cons] at hs1 hs2
      obtain ⟨hh1, ht1⟩ := hs1
      obtain ⟨hh2, ht2⟩ := hs2
      have h12 : (a, w) ∈ (b, u) :: tl2 :=
        (hiff (a, w)).mp (List.mem_cons_self _ _)
      have h21 : (b, u) ∈ (a, w) :: tl1 :=
        (hiff (b, u)).mpr (List.mem_cons_self _ _)
      have hheads : (a, w) = ((b : Nat), (u : α)) := by
        rcases List.mem_cons.mp h12 with h | h
        · exact h
        · rcases List.mem_cons.mp h21 with h' | h'
          · exact h'.symm
          · have hba := hh2 _ h
            have hab := hh1 _ h'
            simp at hba hab
            omega
      obtain ⟨rfl, rfl⟩ := Prod.mk.injEq .. ▸ hheads
      · congr 1
        apply ih ht1 ht2
        intro q
        constructor
        · intro hq
          have hqa := hh1 _ hq
          rcases List.mem_cons.mp ((hiff q).mp (List.mem_cons_of_mem _ hq))
            with rfl | h
          · simp at hqa
          · exact h
        · intro hq
          have hqb := hh2 _ hq
          rcases List.mem_cons.mp ((hiff q).mpr (List.mem_cons_of_mem _ hq))
            with rfl | h
          · simp at hqb
          · exact h

theorem insertSorted_swap {α : Type} {k1 k2 : Nat} {v1 v2 : α}
    {m : List (Nat × α)} (hs : sortedKeys m) (hco : k1 = k2 → v1 = v2) :
    insertSorted k1 v1 (insertSorted k2 v2 m) =
      insertSorted k2 v2 (insertSorted k1 v1 m) := by
  by_cases hk : k1 = k2
  · subst hk
    rw [hco rfl]
  · apply sorted_eq_of_mem_iff
      (sortedKeys_insertSorted (sortedKeys_insertSorted hs))
      (sortedKeys_insertSorted (sortedKeys_insertSorted hs))
    intro q
    rw [mem_insertSorted (sortedKeys_insertSorted hs), mem_insertSorted hs,
      mem_insertSorted (sortedKeys_insertSorted hs), mem_insertSorted hs]
    constructor
    · rintro (rfl | ⟨rfl | ⟨hq, hne2⟩, hne1⟩)
      · exact Or.inr ⟨Or.inl rfl, by simpa using hk⟩
      · exact Or.inl rfl
      · exact Or.inr ⟨Or.inr ⟨hq, hne1⟩, hne2⟩
    · rintro (rfl | ⟨rfl | ⟨hq, hne1⟩, hne2⟩)
      · exact Or.inr ⟨Or.inl rfl, by simpa using fun h => hk h.symm⟩
      · exact Or.inl rfl
      · exact Or.inr ⟨Or.inr ⟨hq, hne2⟩, hne1⟩

theorem groupToBtree_perm {l1 l2 : List (Nat × WriteOp)} (hp : l1.Perm l2) :
    (∀ p ∈ l1, ∀ q ∈ l1,
      Prod.fst (p : Nat × WriteOp) = Prod.fst q → Prod.snd p = Prod.snd q) →
    ∀ acc, sortedKeys acc → groupToBtree acc l1 = groupToBtree acc l2 := by
  induction hp with
  | nil =>
    intro _ acc _
    rfl
  | cons x hp ih =>
    intro hco acc hacc
    obtain ⟨t, v⟩ := x
    simp only [groupToBtree]
    cases hv : v.extract_raw_bytes with
    | none => rfl
    | some b =>
      exact ih
        (fun p hp' q hq' =>
          hco p (List.mem_cons_of_mem _ hp') q (List.mem_cons_of_mem _ hq'))
        _ (sortedKeys_insertSorted hacc)
  | swap x y l =>
    intro hco acc hacc
    obtain ⟨tx, vx⟩ := x
    obtain ⟨ty, vy⟩ := y
    simp only [groupToBtree]
    cases hvy : vy.extract_raw_bytes with
    | none =>
      cases hvx : vx.extract_raw_bytes with
      | none => rfl
      | some bx => simp only [groupToBtree, hvy]
    | some by_ =>
      cases hvx : vx.extract_raw_bytes with
      | none => simp only [groupToBtree, hvx]
      | some bx =>
        simp only [groupToBtree, hvx, hvy]
        have harg : insertSorted tx bx (insertSorted ty by_ acc) =
            insertSorted ty by_ (insertSorted tx bx acc) := by
          apply insertSorted_swap hacc
          intro ht
          have := hco (ty, vy) (by simp) (tx, vx) (by simp) (by simpa using ht.symm)
          simp at this
          rw [this] at hvy
          rw [hvy] at hvx
          injection hvx with h
          exact h.symm
        rw [harg]
  | trans p12 p23 ih12 ih23 =>
    intro hco acc hacc
    rw [ih12 hco acc hacc]
    refine ih23 ?_ acc hacc
    intro p hp' q hq'
    exact hco p (p12.mem_iff.mpr hp') q (p12.mem_iff.mpr hq')

/-- C1: `map_finalized_group` returns the recoverable
fallback-to-sequential signal if and only if the finalized group input is
an error, or the read-needing-exchange flag is set while the metadata op
is a deletion, or the finalized group's emptiness differs from the
metadata op's deletion status; in all other cases it returns the triple
(group key, metadata op, finalized group) unchanged; and every error it
returns is the non-fatal fallback signal, never a fatal one. -/
theorem claim_C1_map_finalized_group (k : Nat)
    (fg : Except String (List (Nat × ValueWithLayout)))
    (mop : WriteOp) (flag : Bool) :
    ((∃ e, map_finalized_group k fg mop flag = .error e) ↔
      ((∃ s, fg = .error s) ∨ (flag = true ∧ mop.is_deletion = true) ∨
        (∃ l, fg = .ok l ∧ l.isEmpty ≠ mop.is_deletion)))
    ∧ (∀ l, fg = .ok l → ¬(flag = true ∧ mop.is_deletion = true) →
        l.isEmpty = mop.is_deletion →
        map_finalized_group k fg mop flag = .ok (k, mop, l))
    ∧ (∀ e, map_finalized_group k fg mop flag = .error e →
        ∃ m, e = .fallbackToSequential (.or (.resourceGroupError m))) := by
  cases fg with
  | error s =>
    refine ⟨⟨fun _ => Or.inl ⟨s, rfl⟩, fun _ => ⟨_, rfl⟩⟩, ?_, ?_⟩
    · intro l hl
      simp at hl
    · intro e he
      simp only [map_finalized_group, Except.error.injEq] at he
      exact ⟨_, he.symm⟩
  | ok l =>
    by_cases hflag : flag = true ∧ mop.is_deletion = true
    · obtain ⟨hf, hd⟩ := hflag
      subst hf
      have hres : map_finalized_group k (.ok l) mop true =
          .error (.fallbackToSequential (resource_group_error
            "Value only read and exchanged, but metadata op is Deletion")) := by
        simp [map_finalized_group, hd]
      refine ⟨⟨fun _ => Or.inr (Or.inl ⟨rfl, hd⟩), fun _ => ⟨_, hres⟩⟩, ?_, ?_⟩
      · intro l' hl' hcontra
        exact absurd ⟨rfl, hd⟩ hcontra
      · intro e he
        rw [hres] at he
        simp only [Except.error.injEq] at he
        exact ⟨_, he.symm⟩
    · by_cases hmis : l.isEmpty = mop.is_deletion
      · have hres : map_finalized_group k (.ok l) mop flag = .ok (k, mop, l) := by
          simp only [map_finalized_group]
          rw [if_neg, if_neg]
          · simp [hmis]
          · intro hc
            rw [Bool.and_eq_true] at hc
            exact hflag ⟨hc.1, hc.2⟩
        refine ⟨⟨?_, ?_⟩, ?_, ?_⟩
        · intro ⟨e, he⟩
          rw [hres] at he
          simp at he
        · rintro ((⟨s, hs⟩) | hb | ⟨l', hl', hne⟩)
          · simp at hs
          · exact absurd hb hflag
          · simp only [Except.ok.injEq] at hl'
            exact absurd (hl' ▸ hmis) hne
        · intro l' hl' _ _
          simp only [Except.ok.injEq] at hl'
          subst hl'
          exact hres
        · intro e he
          rw [hres] at he
          simp at he
      · have hres : map_finalized_group k (.ok l) mop flag =
            .error (.fallbackToSequential (resource_group_error
              "Group is empty but op is deletion mismatch in parallel execution")) := by
          simp only [map_finalized_group]
          rw [if_neg, if_pos]
          · simp [hmis]
          · intro hc
            rw [Bool.and_eq_true] at hc
            exact hflag ⟨hc.1, hc.2⟩
        refine ⟨⟨fun _ => Or.inr (Or.inr ⟨l, rfl, hmis⟩), fun _ => ⟨_, hres⟩⟩, ?_, ?_⟩
        · intro l' hl' _ hemp
          simp only [Except.ok.injEq] at hl'
          subst hl'
          exact absurd hemp hmis
        · intro e he
          rw [hres] at he
          simp only [Except.error.injEq] at he
          exact ⟨_, he.symm⟩

/-- Witness for C1: a well-formed group passes through unchanged, and a
violating input produces the non-fatal fallback error. -/
theorem claim_C1_witness :
    map_finalized_group 3 (.ok [(1, .rawFromStorage (.creation [2] 0))])
      (.modification [5] 7) false
      = .ok (3, .modification [5] 7, [(1, .rawFromStorage (.creation [2] 0))])
    ∧ ∃ m, BlockError.fallbackToSequential (resource_group_error
        "Group is empty but op is deletion mismatch in parallel execution")
        = .fallbackToSequential (.or (.resourceGroupError m)) := by
  constructor
  · exact (claim_C1_map_finalized_group 3
      (.ok [(1, .rawFromStorage (.creation [2] 0))])
      (.modification [5] 7) false).2.1 _ rfl (by simp) rfl
  · exact (claim_C1_map_finalized_group 3 (.ok [])
      (.modification [5] 7) false).2.2 _ rfl

/-- C5: every sequential identifier start value is strictly below every
parallel one; sequential results lie in [1000000, 999000000] and parallel
results in [1001000000, 1999000000], so the ranges never overlap. -/
theorem claim_C5_gen_id_start_value_disjoint (r1 r2 : Nat) :
    gen_id_start_value true r1 < gen_id_start_value false r2
    ∧ 1000000 ≤ gen_id_start_value true r1
    ∧ gen_id_start_value true r1 ≤ 999000000
    ∧ 1001000000 ≤ gen_id_start_value false r2
    ∧ gen_id_start_value false r2 ≤ 1999000000 := by
  have h1 : r1 % 999 < 999 := Nat.mod_lt _ (by omega)
  have h2 : r2 % 999 < 999 := Nat.mod_lt _ (by omega)
  have e1 : gen_id_start_value true r1 = (1 + r1 % 999) * 1000000 := by
    show ((1 + 0 + r1 % 999) * 1000000) % 2 ^ 32 = _
    rw [Nat.mod_eq_of_lt (by norm_num; omega)]
  have e2 : gen_id_start_value false r2 = (1001 + r2 % 999) * 1000000 := by
    show ((1 + 1000 + r2 % 999) * 1000000) % 2 ^ 32 = _
    rw [Nat.mod_eq_of_lt (by norm_num; omega)]
  rw [e1, e2]
  refine ⟨?_, ?_, ?_, ?_, ?_⟩ <;> omega

/-- C7: serializing a finalized group is invariant under permuting its
list of (tag, value) pairs, provided equal tags carry equal values: the
pairs are collected into the tag-ordered mapping before the canonical
encoding. -/
theorem claim_C7_serialize_groups_deterministic (k : Nat) (mop : WriteOp)
    (l1 l2 : List (Nat × WriteOp)) (hp : l1.Perm l2)
    (hco : ∀ p ∈ l1, ∀ q ∈ l1,
      Prod.fst (p : Nat × WriteOp) = Prod.fst q → Prod.snd p = Prod.snd q) :
    serialize_groups [(k, mop, l1)] = serialize_groups [(k, mop, l2)] := by
  have h := groupToBtree_perm hp hco [] (by simp [sortedKeys])
  simp only [serialize_groups, serializeGroup]
  rw [h]

/-- Witness for C7: two orderings of the same two-member group serialize
identically. -/
theorem claim_C7_witness :
    serialize_groups [(1, .modification [9] 0,
      [(4, WriteOp.creation [7] 0), (2, WriteOp.creation [8] 0)])]
    = serialize_groups [(1, .modification [9] 0,
      [(2, WriteOp.creation [8] 0), (4, WriteOp.creation [7] 0)])] := by
  exact claim_C7_serialize_groups_deterministic 1 (.modification [9] 0)
    [(4, WriteOp.creation [7] 0), (2, WriteOp.creation [8] 0)]
    [(2, WriteOp.creation [8] 0), (4, WriteOp.creation [7] 0)]
    (List.Perm.swap _ _ _) (by decide)

theorem readDFV_setDFV (vs : ViewStateM) (id : Nat) (dv : DelayedFieldValue) :
    readDFV (setDFV vs id dv) id = some dv := by
  cases vs <;> simp [setDFV, readDFV, lookupA]

/-- C2: round trip of the exchange engine. If `value_to_identifier`
succeeds on value `v` under kind `K` and layout `L`, then applying
`identifier_to_value` with `L` to its result, on the same mapping
instance (the state it returned), yields `v` back, with no further state
change. -/
theorem claim_C2_value_identifier_roundtrip (s : ExchState)
    (K : IdentifierMappingKind) (L : MoveLayout) (v v' : MoveValue)
    (s' : ExchState) (h : value_to_identifier s K L v = (.ok v', s')) :
    identifier_to_value s' L v' = some (.ok v, s') := by
  unfold value_to_identifier at h
  cases htf : tryFromMoveValueDFV L v K with
  | error e =>
    rw [htf] at h
    simp at h
  | ok bv =>
    rw [htf] at h
    simp only [Prod.mk.injEq] at h
    obtain ⟨henc, hs⟩ := h
    subst hs
    unfold identifier_to_value
    rw [decodeId_encodeId henc]
    have hmem : s.nextId ∈ insertSet s.nextId s.touched := by
      rw [mem_insertSet]
      exact Or.inl rfl
    simp only [insertSet_of_mem hmem, readDFV_setDFV,
      tryInto_tryFrom htf]

/-- Witness for C2: lifting the aggregator value 42 to identifier 100 and
resolving it back returns 42. -/
theorem claim_C2_witness :
    identifier_to_value
      ⟨.unsync [(100, .aggregator 42)], 101, [100]⟩ .u64L (.u64V 100)
      = some (.ok (.u64V 42),
        ⟨.unsync [(100, .aggregator 42)], 101, [100]⟩) :=
  claim_C2_value_identifier_roundtrip ⟨.unsync [], 100, []⟩ .aggregator
    .u64L (.u64V 42) (.u64V 100)
    ⟨.unsync [(100, .aggregator 42)], 101, [100]⟩ rfl

/-- C4: decoding an identifier whose value was never set in the attempt's
view makes `identifier_to_value` fail fatally (the modelled panic),
while under the precondition that the identifier has a stored value the
call returns that value converted back through the layout (recording the
identifier in the touched set) and the fatal branch is not taken. -/
theorem claim_C4_identifier_to_value_missing (s : ExchState)
    (L : MoveLayout) (v : MoveValue) (id : Nat)
    (h : decodeId L v = .ok id) :
    (readDFV s.view id = none → identifier_to_value s L v = none)
    ∧ (∀ dv, readDFV s.view id = some dv →
        identifier_to_value s L v =
          some (tryIntoMoveValueDFV L dv,
            { s with touched := insertSet id s.touched })) := by
  unfold identifier_to_value
  rw [h]
  constructor
  · intro hr
    simp only [hr]
  · intro dv hr
    simp only [hr]

/-- Witness for C4: identifier 5 unset in a Sync view panics; set in an
Unsync view it resolves to the stored aggregator value 7. -/
theorem claim_C4_witness :
    identifier_to_value ⟨.sync [], 0, []⟩ .u64L (.u64V 5) = none
    ∧ identifier_to_value
        ⟨.unsync [(5, .aggregator 7)], 0, []⟩ .u64L (.u64V 5)
        = some (.ok (.u64V 7), ⟨.unsync [(5, .aggregator 7)], 0, [5]⟩) :=
  ⟨(claim_C4_identifier_to_value_missing
      ⟨.sync [], 0, []⟩ .u64L (.u64V 5) 5 rfl).1 rfl,
   (claim_C4_identifier_to_value_missing
      ⟨.unsync [(5, .aggregator 7)], 0, []⟩ .u64L (.u64V 5) 5 rfl).2
     (.aggregator 7) rfl⟩

theorem serializeGroup_cases (g : Nat × WriteOp × List (Nat × WriteOp)) :
    (∀ e, serializeGroup g = some (.error e) →
      ∃ m, e = .or (.resourceGroupError m))
    ∧ (∀ kv, serializeGroup g = some (.ok kv) →
        ∃ bt blob, groupToBtree [] g.2.2 = some bt ∧ bcsMap bt = .ok blob ∧
          kv = (g.1, g.2.1.set_bytes blob)) := by
  constructor
  · intro e he
    unfold serializeGroup at he
    split at he
    · simp at he
    · split at he
      · simp only [resource_group_error, Option.some.injEq,
          Except.error.injEq] at he
        exact ⟨_, he.symm⟩
      · simp at he
  · intro kv h
    unfold serializeGroup at h
    split at h
    · simp at h
    · split at h
      · simp at h
      · simp only [Option.some.injEq, Except.ok.injEq] at h
        exact ⟨_, _, by assumption, by assumption, h.symm⟩

/-- C6: in `serialize_groups`, every returned error is the non-fatal
fallback-to-sequential signal (a `PanicOr.or` wrapping a resource-group
error), never a fatal invariant violation; and on success each group's
metadata op is returned with its bytes set to the group's canonically
serialized blob. -/
theorem claim_C6_serialize_groups_error_handling
    (gs : List (Nat × WriteOp × List (Nat × WriteOp))) :
    (∀ e, serialize_groups gs = some (.error e) →
      ∃ m, e = .or (.resourceGroupError m))
    ∧ (∀ out, serialize_groups gs = some (.ok out) →
        List.Forall₂
          (fun (g : Nat × WriteOp × List (Nat × WriteOp)) (o : Nat × WriteOp) =>
            ∃ bt blob, groupToBtree [] g.2.2 = some bt ∧
              bcsMap bt = .ok blob ∧ o = (g.1, g.2.1.set_bytes blob))
          gs out) := by
  induction gs with
  | nil =>
    constructor
    · intro e he
      simp [serialize_groups] at he
    · intro out hout
      simp only [serialize_groups, Option.some.injEq, Except.ok.injEq] at hout
      subst hout
      exact List.Forall₂.nil
  | cons g rest ih =>
    constructor
    · intro e he
      simp only [serialize_groups] at he
      split at he
      · simp at he
      · simp only [Option.some.injEq, Except.error.injEq] at he
        subst he
        exact (serializeGroup_cases g).1 _ (by assumption)
      · split at he
        · simp at he
        · simp only [Option.some.injEq, Except.error.injEq] at he
          subst he
          exact ih.1 _ (by assumption)
        · simp at he
    · intro out hout
      simp only [serialize_groups] at hout
      split at hout
      · simp at hout
      · simp at hout
      · split at hout
        · simp at hout
        · simp at hout
        · simp only [Option.some.injEq, Except.ok.injEq] at hout
          subst hout
          exact List.Forall₂.cons
            ((serializeGroup_cases g).2 _ (by assumption))
            (ih.2 _ (by assumption))

/-- An over-long byte string: one byte more than the canonical encoding
accepts. Used to exhibit a group serialization failure. -/
def bigBytes : List Nat := List.replicate (2 ^ 31) 0

theorem bigBytes_length : bigBytes.length = 2 ^ 31 :=
  List.length_replicate _ _

theorem bcsBytes_bigBytes : bcsBytes bigBytes = .error "ExceededMaxLen" := by
  unfold bcsBytes
  rw [bigBytes_length, if_neg (by norm_num [MAX_SEQUENCE_LENGTH])]

theorem groupToBtree_single (t : Nat) (b : List Nat) (m : Nat) :
    groupToBtree [] [(t, WriteOp.modification b m)] = some [(t, b)] := by
  simp [groupToBtree, WriteOp.extract_raw_bytes, WriteOp.bytes, insertSorted]

theorem bcsMap_single_overflow (t : Nat) (b : List Nat)
    (h : bcsBytes b = .error "ExceededMaxLen") :
    bcsMap [(t, b)] = .error "ExceededMaxLen" := by
  simp [bcsMap, bcsMapEntries, h, MAX_SEQUENCE_LENGTH]

theorem serialize_groups_single_error (k : Nat) (mop : WriteOp)
    (l : List (Nat × WriteOp)) (bt : List (Nat × List Nat)) (e : String)
    (hbt : groupToBtree [] l = some bt) (hbc : bcsMap bt = .error e) :
    serialize_groups [(k, mop, l)] = some (.error (.or (.resourceGroupError
      ("Unexpected resource group error " ++ e)))) := by
  simp [serialize_groups, serializeGroup, hbt, hbc, resource_group_error]

/-- Witness for C6: a small group serializes successfully with the blob
set on its metadata op, and a group member whose bytes exceed the maximum
sequence length produces the non-fatal fallback error. -/
theorem claim_C6_witness :
    List.Forall₂
      (fun (g : Nat × WriteOp × List (Nat × WriteOp)) (o : Nat × WriteOp) =>
        ∃ bt blob, groupToBtree [] g.2.2 = some bt ∧
          bcsMap bt = .ok blob ∧ o = (g.1, g.2.1.set_bytes blob))
      [(1, WriteOp.modification [5] 0, [(0, WriteOp.creation [7] 0)])]
      [(1, WriteOp.modification [1, 0, 1, 7] 0)]
    ∧ ∃ m, PanicOr.or (IntentionalFallbackToSequential.resourceGroupError
        "Unexpected resource group error ExceededMaxLen")
        = PanicOr.or (.resourceGroupError m) := by
  have hok : serialize_groups
      [(1, WriteOp.modification [5] 0, [(0, WriteOp.creation [7] 0)])]
      = some (.ok [(1, WriteOp.modification [1, 0, 1, 7] 0)]) := by
    simp [serialize_groups, serializeGroup, groupToBtree, insertSorted,
      WriteOp.extract_raw_bytes, WriteOp.bytes, bcsMap, bcsMapEntries,
      bcsBytes, bcsTag, MAX_SEQUENCE_LENGTH, ulebEncode, WriteOp.set_bytes]
  have herr : serialize_groups
      [(0, WriteOp.modification [] 0, [(3, WriteOp.modification bigBytes 0)])]
      = some (.error (.or (.resourceGroupError
          "Unexpected resource group error ExceededMaxLen"))) :=
    serialize_groups_single_error 0 (WriteOp.modification [] 0)
      [(3, WriteOp.modification bigBytes 0)] [(3, bigBytes)] "ExceededMaxLen"
      (groupToBtree_single 3 bigBytes 0)
      (bcsMap_single_overflow 3 bigBytes bcsBytes_bigBytes)
  exact ⟨(claim_C6_serialize_groups_error_handling
      [(1, WriteOp.modification [5] 0, [(0, WriteOp.creation [7] 0)])]).2
      _ hok,
    (claim_C6_serialize_groups_error_handling
      [(0, WriteOp.modification [] 0,
        [(3, WriteOp.modification bigBytes 0)])]).1
      _ herr⟩

/-- The value relation of the group-write patcher: raw and layout-less
exchanged members pass through; an exchanged member with a layout is
replaced by its identifier-resolved form. -/
def patchedValueRel (resolve : List Nat → MoveLayout → Option (List Nat))
    (p : Nat × ValueWithLayout) (q : Nat × WriteOp) : Prop :=
  p.1 = q.1 ∧
  (match p.2 with
   | .rawFromStorage v => q.2 = v
   | .exchanged v none => q.2 = v
   | .exchanged v (some l) =>
       replace_ids_with_values resolve v l = some (.ok q.2))

theorem patchGroupVec_frame
    (resolve : List Nat → MoveLayout → Option (List Nat))
    (gv : List (Nat × ValueWithLayout)) :
    ∀ pv, patchGroupVec resolve gv = some (.ok pv) →
      List.Forall₂ (patchedValueRel resolve) gv pv := by
  induction gv with
  | nil =>
    intro pv h
    simp only [patchGroupVec, Option.some.injEq, Except.ok.injEq] at h
    subst h
    exact List.Forall₂.nil
  | cons hd rest ih =>
    obtain ⟨tag, vwl⟩ := hd
    intro pv h
    simp only [patchGroupVec] at h
    cases hpv : patchGroupValue resolve vwl with
    | none =>
      rw [hpv] at h
      simp at h
    | some r =>
      rw [hpv] at h
      cases r with
      | error e => simp at h
      | ok v =>
        cases hrest : patchGroupVec resolve rest with
        | none =>
          rw [hrest] at h
          simp at h
        | some rr =>
          rw [hrest] at h
          cases rr with
          | error e => simp at h
          | ok vs =>
            simp only [Option.some.injEq, Except.ok.injEq] at h
            subst h
            refine List.Forall₂.cons ⟨rfl, ?_⟩ (ih vs hrest)
            cases vwl with
            | rawFromStorage v' =>
              simp only [patchGroupValue, Option.some.injEq,
                Except.ok.injEq] at hpv
              exact hpv.symm
            | exchanged v' lo =>
              cases lo with
              | none =>
                simp only [patchGroupValue, Option.some.injEq,
                  Except.ok.injEq] at hpv
                exact hpv.symm
              | some l => exact hpv

/-- C9: frame property of the group-write patcher. On success,
`map_id_to_values_in_group_writes` preserves every group key, every group
metadata op, and the order and number of (tag, value) pairs with their
tags; values tagged raw-from-storage or exchanged with no layout are
returned unchanged, and exactly the exchanged values with a layout are
replaced by their identifier-resolved form. -/
theorem claim_C9_group_writes_frame
    (resolve : List Nat → MoveLayout → Option (List Nat))
    (fgs : List (Nat × WriteOp × List (Nat × ValueWithLayout)))
    (out : List (Nat × WriteOp × List (Nat × WriteOp)))
    (h : map_id_to_values_in_group_writes resolve fgs = some (.ok out)) :
    List.Forall₂
      (fun (g : Nat × WriteOp × List (Nat × ValueWithLayout))
           (o : Nat × WriteOp × List (Nat × WriteOp)) =>
        g.1 = o.1 ∧ g.2.1 = o.2.1 ∧
        List.Forall₂ (patchedValueRel resolve) g.2.2 o.2.2)
      fgs out := by
  induction fgs generalizing out with
  | nil =>
    simp only [map_id_to_values_in_group_writes, Option.some.injEq,
      Except.ok.injEq] at h
    subst h
    exact List.Forall₂.nil
  | cons g rest ih =>
    obtain ⟨gk, gm, gv⟩ := g
    simp only [map_id_to_values_in_group_writes] at h
    cases hpgv : patchGroupVec resolve gv with
    | none =>
      rw [hpgv] at h
      simp at h
    | some r =>
      rw [hpgv] at h
      cases r with
      | error e => simp at h
      | ok pv =>
        cases hrest : map_id_to_values_in_group_writes resolve rest with
        | none =>
          rw [hrest] at h
          simp at h
        | some rr =>
          rw [hrest] at h
          cases rr with
          | error e => simp at h
          | ok outs =>
            simp only [Option.some.injEq, Except.ok.injEq] at h
            subst h
            exact List.Forall₂.cons
              ⟨rfl, rfl, patchGroupVec_frame resolve gv pv hpgv⟩
              (ih outs hrest)

/-- Witness for C9: a group with a raw member, a layout-less exchanged
member, and a layout-bearing exchanged member keeps its key, metadata op,
tags and order, patching only the last member. -/
theorem claim_C9_witness :
    List.Forall₂
      (fun (g : Nat × WriteOp × List (Nat × ValueWithLayout))
           (o : Nat × WriteOp × List (Nat × WriteOp)) =>
        g.1 = o.1 ∧ g.2.1 = o.2.1 ∧
        List.Forall₂ (patchedValueRel (fun b _ => some (b ++ [9]))) g.2.2 o.2.2)
      [(1, WriteOp.modification [0] 5,
        [(2, .rawFromStorage (.creation [3] 0)),
         (4, .exchanged (.creation [6] 1) none),
         (7, .exchanged (.creation [8] 2) (some .u64L))])]
      [(1, WriteOp.modification [0] 5,
        [(2, WriteOp.creation [3] 0),
         (4, WriteOp.creation [6] 1),
         (7, WriteOp.modification [8, 9] 2)])] :=
  claim_C9_group_writes_frame (fun b _ => some (b ++ [9]))
    [(1, WriteOp.modification [0] 5,
      [(2, .rawFromStorage (.creation [3] 0)),
       (4, .exchanged (.creation [6] 1) none),
       (7, .exchanged (.creation [8] 2) (some .u64L))])]
    [(1, WriteOp.modification [0] 5,
      [(2, WriteOp.creation [3] 0),
       (4, WriteOp.creation [6] 1),
       (7, WriteOp.modification [8, 9] 2)])] rfl

theorem metadata_of_bytes {v : WriteOp} {b : List Nat}
    (h : v.bytes = some b) : ∃ m, v.as_state_value_metadata = some m := by
  cases v <;> simp [WriteOp.bytes, WriteOp.as_state_value_metadata] at h ⊢

/-- C10: `does_value_need_exchange` returns `None` for every deletion
(absent bytes) regardless of layout, key and identifier set; with bytes
present it returns `Some(Ok(key, metadata, layout))` exactly when the
write-set identifier set intersects the identifiers extracted from the
bytes, `None` when they are disjoint, and `Some(Err(..))` (a fatal
invariant error) exactly when extraction fails. -/
theorem claim_C10_does_value_need_exchange (value : WriteOp)
    (layout : MoveLayout) (ids : List Nat) (key : Nat) :
    (value.bytes = none →
      does_value_need_exchange value layout ids key = some none)
    ∧ (∀ b, value.bytes = some b →
        (∀ ex, extract_identifiers_from_value b layout = .ok ex →
          ((∃ x ∈ ids, x ∈ ex) →
            ∃ m, value.as_state_value_metadata = some m ∧
              does_value_need_exchange value layout ids key
                = some (some (.ok (key, m, layout))))
          ∧ ((∀ x ∈ ids, x ∉ ex) →
            does_value_need_exchange value layout ids key = some none))
        ∧ (∀ e, extract_identifiers_from_value b layout = .error e →
            does_value_need_exchange value layout ids key
              = some (some (.error (code_invariant_error
                "Cannot extract identifiers from value that identifiers were exchanged into before"))))) := by
  constructor
  · intro hb
    simp [does_value_need_exchange, hb]
  · intro b hb
    obtain ⟨m, hm⟩ := metadata_of_bytes hb
    constructor
    · intro ex hex
      constructor
      · intro hinter
        refine ⟨m, hm, ?_⟩
        have hall : ids.all (fun x => decide (x ∉ ex)) = false := by
          obtain ⟨x, hx, hxe⟩ := hinter
          rw [List.all_eq_false]
          exact ⟨x, hx, by simpa using hxe⟩
        simp only [does_value_need_exchange, hb, hex, hall, hm,
          Bool.false_eq_true, if_false]
      · intro hdisj
        have hall : ids.all (fun x => decide (x ∉ ex)) = true := by
          rw [List.all_eq_true]
          intro x hx
          simpa using hdisj x hx
        simp only [does_value_need_exchange, hb, hex, hall, if_true]
    · intro e hex
      simp [does_value_need_exchange, hb, hex, code_invariant_error]

/-- Witness for C10: a deletion needs no exchange; bytes embedding
identifier 5 need exchange against the write set containing 5, not
against one containing only 6; malformed bytes yield the fatal
extraction error. -/
theorem claim_C10_witness :
    does_value_need_exchange (.deletion 0) (.nativeL .aggregator .u64L) [1] 9
      = some none
    ∧ (∃ m, WriteOp.as_state_value_metadata
          (.modification [5, 0, 0, 0, 0, 0, 0, 0] 3) = some m ∧
        does_value_need_exchange (.modification [5, 0, 0, 0, 0, 0, 0, 0] 3)
          (.nativeL .aggregator .u64L) [5] 9 = some (some (.ok (9, m,
            .nativeL .aggregator .u64L))))
    ∧ does_value_need_exchange (.modification [5, 0, 0, 0, 0, 0, 0, 0] 3)
        (.nativeL .aggregator .u64L) [6] 9 = some none
    ∧ does_value_need_exchange (.modification [1] 3)
        (.nativeL .aggregator .u64L) [6] 9
        = some (some (.error (code_invariant_error
          "Cannot extract identifiers from value that identifiers were exchanged into before"))) := by
  refine ⟨?_, ?_, ?_, ?_⟩
  · exact (claim_C10_does_value_need_exchange (.deletion 0)
      (.nativeL .aggregator .u64L) [1] 9).1 rfl
  · exact ((claim_C10_does_value_need_exchange
      (.modification [5, 0, 0, 0, 0, 0, 0, 0] 3)
      (.nativeL .aggregator .u64L) [5] 9).2 _ rfl).1 [5] rfl
      |>.1 ⟨5, by simp, by simp⟩
  · exact ((claim_C10_does_value_need_exchange
      (.modification [5, 0, 0, 0, 0, 0, 0, 0] 3)
      (.nativeL .aggregator .u64L) [6] 9).2 _ rfl).1 [5] rfl
      |>.2 (by intro x hx; simp at hx; simp [hx])
  · exact ((claim_C10_does_value_need_exchange (.modification [1] 3)
      (.nativeL .aggregator .u64L) [6] 9).2 _ rfl).2 _ rfl

theorem appendSet_append (s : List Nat) (l1 l2 : List Nat) :
    appendSet s (l1 ++ l2) = appendSet (appendSet s l1) l2 := by
  induction l1 generalizing s with
  | nil => rfl
  | cons a l ih =>
    simp only [List.cons_append, appendSet]
    exact ih (insertSet a s)

mutual

theorem desR_extract : ∀ (L : MoveLayout) (b : List Nat) (v : MoveValue)
    (rest : List Nat), des L b = some (v, rest) →
    ∀ ids, collectIds L v = some ids →
    ∀ s, desR extract_value_to_identifier L s b
      = some (v, appendSet s ids, rest)
  | .u64L, b, v, rest => by
    intro h ids hc s
    unfold des at h
    cases ht : takeN 8 b with
    | none => rw [ht] at h; simp at h
    | some pr =>
      rw [ht] at h
      obtain ⟨pre, post⟩ := pr
      simp only [Option.some.injEq, Prod.mk.injEq] at h
      obtain ⟨rfl, rfl⟩ := h
      simp only [collectIds, Option.some.injEq] at hc
      subst hc
      unfold desR
      rw [ht]
      rfl
  | .u128L, b, v, rest => by
    intro h ids hc s
    unfold des at h
    cases ht : takeN 16 b with
    | none => rw [ht] at h; simp at h
    | some pr =>
      rw [ht] at h
      obtain ⟨pre, post⟩ := pr
      simp only [Option.some.injEq, Prod.mk.injEq] at h
      obtain ⟨rfl, rfl⟩ := h
      simp only [collectIds, Option.some.injEq] at hc
      subst hc
      unfold desR
      rw [ht]
      rfl
  | .bytesL, b, v, rest => by
    intro h ids hc s
    unfold des at h
    cases hu : ulebDecode b with
    | none => rw [hu] at h; simp at h
    | some nr =>
      rw [hu] at h
      obtain ⟨n, r⟩ := nr
      simp only [] at h
      cases ht : takeN n r with
      | none => rw [ht] at h; simp at h
      | some pr =>
        rw [ht] at h
        obtain ⟨pre, post⟩ := pr
        simp only [Option.some.injEq, Prod.mk.injEq] at h
        obtain ⟨rfl, rfl⟩ := h
        simp only [collectIds, Option.some.injEq] at hc
        subst hc
        unfold desR
        rw [hu]
        simp only []
        rw [ht]
        rfl
  | .structL fs, b, v, rest => by
    intro h ids hc s
    unfold des at h
    cases hf : desFields fs b with
    | none => rw [hf] at h; simp at h
    | some vr =>
      rw [hf] at h
      obtain ⟨vs, r⟩ := vr
      simp only [Option.some.injEq, Prod.mk.injEq] at h
      obtain ⟨rfl, rfl⟩ := h
      simp only [collectIds] at hc
      have hfr := desRFields_extract fs b vs _ hf ids hc s
      unfold desR
      rw [hfr]
  | .nativeL k inner, b, v, rest => by
    intro h ids hc s
    unfold des at h
    simp only [collectIds] at hc
    cases hd : decodeId inner v with
    | error e => rw [hd] at hc; simp at hc
    | ok id =>
      rw [hd] at hc
      simp only [Option.some.injEq] at hc
      subst hc
      unfold desR
      rw [h]
      simp only []
      unfold extract_value_to_identifier
      rw [hd]
      simp only []
      rw [encodeId_decodeId hd]
      rfl

theorem desRFields_extract : ∀ (Ls : List MoveLayout) (b : List Nat)
    (vs : List MoveValue) (rest : List Nat),
    desFields Ls b = some (vs, rest) →
    ∀ ids, collectIdsFields Ls vs = some ids →
    ∀ s, desRFields extract_value_to_identifier Ls s b
      = some (vs, appendSet s ids, rest)
  | [], b, vs, rest => by
    intro h ids hc s
    unfold desFields at h
    simp only [Option.some.injEq, Prod.mk.injEq] at h
    obtain ⟨rfl, rfl⟩ := h
    simp only [collectIdsFields, Option.some.injEq] at hc
    subst hc
    rfl
  | L :: Ls, b, vs, rest => by
    intro h ids hc s
    unfold desFields at h
    cases hd : des L b with
    | none => rw [hd] at h; simp at h
    | some vr =>
      rw [hd] at h
      obtain ⟨v, r1⟩ := vr
      simp only [] at h
      cases hf : desFields Ls r1 with
      | none => rw [hf] at h; simp at h
      | some vr2 =>
        rw [hf] at h
        obtain ⟨vs2, r2⟩ := vr2
        simp only [Option.some.injEq, Prod.mk.injEq] at h
        obtain ⟨rfl, rfl⟩ := h
        simp only [collectIdsFields] at hc
        cases hc1 : collectIds L v with
        | none => rw [hc1] at hc; simp at hc
        | some ids1 =>
          rw [hc1] at hc
          cases hc2 : collectIdsFields Ls vs2 with
          | none => rw [hc2] at hc; simp at hc
          | some ids2 =>
            rw [hc2] at hc
            simp only [Option.some.injEq] at hc
            subst hc
            have h1 := desR_extract L b v r1 hd ids1 hc1 s
            have h2 := desRFields_extract Ls r1 vs2 _ hf ids2 hc2
              (appendSet s ids1)
            unfold desRFields
            rw [h1]
            simp only []
            rw [h2]
            simp only []
            rw [appendSet_append]

end

/-- C8: the identifier-extraction mapping is read-only and stateless with
respect to shared state: on a value that decodes as an identifier, both
of its directions return the value unchanged, consult no view state, mint
no identifier, and record exactly the decoded identifier in the touched
set; consequently `extract_identifiers_from_value` returns exactly the
set of identifiers embedded in the bytes. -/
theorem claim_C8_extract_mapping :
    (∀ (s : List Nat) (K : IdentifierMappingKind) (L : MoveLayout)
        (v : MoveValue) (id : Nat), decodeId L v = .ok id →
      extract_value_to_identifier s K L v = .ok (v, insertSet id s)
      ∧ extract_identifier_to_value s L v = .ok (v, insertSet id s))
    ∧ (∀ (b : List Nat) (L : MoveLayout) (v : MoveValue) (ids : List Nat),
        des L b = some (v, []) → collectIds L v = some ids →
        ∃ s, extract_identifiers_from_value b L = .ok s ∧
          ∀ x, x ∈ s ↔ x ∈ ids) := by
  constructor
  · intro s K L v id h
    constructor
    · unfold extract_value_to_identifier
      rw [h]
      simp only []
      rw [encodeId_decodeId h]
    · unfold extract_identifier_to_value
      rw [h]
      simp only []
      rw [encodeId_decodeId h]
  · intro b L v ids hdes hcol
    have hr := desR_extract L b v [] hdes ids hcol []
    refine ⟨appendSet [] ids, ?_, ?_⟩
    · unfold extract_identifiers_from_value
      rw [hr]
    · intro x
      rw [mem_appendSet]
      simp

/-- Witness for C8: the mapping leaves an identifier-bearing u64 value
unchanged while recording identifier 3, and extraction on a two-field
struct recovers exactly the embedded identifiers 5 and 7. -/
theorem claim_C8_witness :
    (extract_value_to_identifier [] .aggregator .u64L (.u64V 3)
        = .ok (.u64V 3, [3])
      ∧ extract_identifier_to_value [] .u64L (.u64V 3) = .ok (.u64V 3, [3]))
    ∧ ∃ s, extract_identifiers_from_value
        [5, 0, 0, 0, 0, 0, 0, 0, 7, 0, 0, 0, 0, 0, 0, 0]
        (.structL [.nativeL .aggregator .u64L, .nativeL .snapshot .u64L])
        = .ok s ∧ ∀ x, x ∈ s ↔ x ∈ [5, 7] :=
  ⟨claim_C8_extract_mapping.1 [] .aggregator .u64L (.u64V 3) 3 rfl,
   claim_C8_extract_mapping.2
     [5, 0, 0, 0, 0, 0, 0, 0, 7, 0, 0, 0, 0, 0, 0, 0]
     (.structL [.nativeL .aggregator .u64L, .nativeL .snapshot .u64L])
     (.structV [.u64V 5, .u64V 7]) [5, 7] rfl rfl⟩

theorem mivwsGo_spec (resolve : List Nat → MoveLayout → Option (List Nat)) :
    ∀ (ws : List (Nat × (WriteOp × Option MoveLayout)))
      (acc out : List (Nat × WriteOp)),
    sortedKeys acc →
    (∀ k, k ∈ acc.map Prod.fst → k ∉ ws.map Prod.fst) →
    (ws.map Prod.fst).Nodup →
    mivwsGo resolve acc ws = some out →
    sortedKeys out ∧
    (∀ k v, (k, v) ∈ out ↔
      ((k, v) ∈ acc ∨ ∃ op l b pb,
        (k, (op, some l)) ∈ ws ∧ op.is_deletion = false ∧
        op.bytes = some b ∧ resolve b l = some pb ∧
        v = op.set_bytes pb)) := by
  intro ws
  induction ws with
  | nil =>
    intro acc out hs _ _ h
    simp only [mivwsGo, Option.some.injEq] at h
    subst h
    refine ⟨hs, ?_⟩
    intro k v
    simp
  | cons e rest ih =>
    obtain ⟨key, op, lo⟩ := e
    intro acc out hs hdisj hnd h
    simp only [List.map_cons, List.nodup_cons] at hnd
    obtain ⟨hkey, hnd'⟩ := hnd
    cases lo with
    | none =>
      simp only [mivwsGo] at h
      have hres := ih acc out hs
        (fun k hk hmem => hdisj k hk (List.mem_cons_of_mem _ hmem)) hnd' h
      refine ⟨hres.1, ?_⟩
      intro k v
      rw [(hres.2 k v)]
      constructor
      · rintro (hacc | ⟨op', l', b', pb', hmem, hd', hb', hr', hv⟩)
        · exact Or.inl hacc
        · exact Or.inr ⟨op', l', b', pb',
            List.mem_cons_of_mem _ hmem, hd', hb', hr', hv⟩
      · rintro (hacc | ⟨op', l', b', pb', hmem, hd', hb', hr', hv⟩)
        · exact Or.inl hacc
        · rcases List.mem_cons.mp hmem with heq | hmem'
          · simp at heq
          · exact Or.inr ⟨op', l', b', pb', hmem', hd', hb', hr', hv⟩
    | some l =>
      simp only [mivwsGo] at h
      by_cases hdel : op.is_deletion
      · rw [if_pos hdel] at h
        have hres := ih acc out hs
          (fun k hk hmem => hdisj k hk (List.mem_cons_of_mem _ hmem)) hnd' h
        refine ⟨hres.1, ?_⟩
        intro k v
        rw [(hres.2 k v)]
        constructor
        · rintro (hacc | ⟨op', l', b', pb', hmem, hd', hb', hr', hv⟩)
          · exact Or.inl hacc
          · exact Or.inr ⟨op', l', b', pb',
              List.mem_cons_of_mem _ hmem, hd', hb', hr', hv⟩
        · rintro (hacc | ⟨op', l', b', pb', hmem, hd', hb', hr', hv⟩)
          · exact Or.inl hacc
          · rcases List.mem_cons.mp hmem with heq | hmem'
            · simp only [Prod.mk.injEq] at heq
              obtain ⟨hk, hop, hl⟩ := heq
              rw [hop] at hd'
              rw [hd'] at hdel
              simp at hdel
            · exact Or.inr ⟨op', l', b', pb', hmem', hd', hb', hr', hv⟩
      · rw [if_neg hdel] at h
        have hdelf : op.is_deletion = false := by
          revert hdel
          cases op.is_deletion <;> simp
        cases hb : op.bytes with
        | none =>
          rw [hb] at h
          simp at h
        | some b =>
          rw [hb] at h
          simp only [] at h
          cases hr : resolve b l with
          | none =>
            rw [hr] at h
            simp at h
          | some pb =>
            rw [hr] at h
            simp only [] at h
            have hkeyacc : key ∉ acc.map Prod.fst := by
              intro hk
              exact hdisj key hk (by simp)
            have hrec := ih (insertSorted key (op.set_bytes pb) acc) out
              (sortedKeys_insertSorted hs)
              (fun k hk hmem => by
                rcases mem_keys_insertSorted.mp hk with rfl | hk'
                · exact hkey hmem
                · exact hdisj k hk' (List.mem_cons_of_mem _ hmem))
              hnd' h
            refine ⟨hrec.1, ?_⟩
            intro k v
            rw [(hrec.2 k v), mem_insertSorted hs]
            constructor
            · rintro ((heq | ⟨hacc, _⟩) | ⟨op', l', b', pb', hmem, hd', hb', hr', hv⟩)
              · rw [Prod.mk.injEq] at heq
                obtain ⟨rfl, rfl⟩ := heq
                exact Or.inr ⟨op, l, b, pb, by simp, hdelf, hb, hr, rfl⟩
              · exact Or.inl hacc
              · exact Or.inr ⟨op', l', b', pb',
                  List.mem_cons_of_mem _ hmem, hd', hb', hr', hv⟩
            · rintro (hacc | ⟨op', l', b', pb', hmem, hd', hb', hr', hv⟩)
              · have hk : k ∈ acc.map Prod.fst :=
                  List.mem_map_of_mem Prod.fst hacc
                have hne := hdisj k hk
                simp only [List.map_cons, List.mem_cons, not_or] at hne
                exact Or.inl (Or.inr ⟨hacc, hne.1⟩)
              · rcases List.mem_cons.mp hmem with heq | hmem'
                · simp only [Prod.mk.injEq, Option.some.injEq] at heq
                  obtain ⟨rfl, hop, hl⟩ := heq
                  subst hop
                  subst hl
                  rw [hb] at hb'
                  injection hb' with hb'
                  subst hb'
                  rw [hr] at hr'
                  injection hr' with hr'
                  subst hr'
                  exact Or.inl (Or.inl (by rw [hv]))
                · have hkrest : k ∈ rest.map Prod.fst :=
                    List.mem_map_of_mem Prod.fst hmem'
                  exact Or.inr ⟨op', l', b', pb', hmem', hd', hb', hr', hv⟩

/-- Counterexample to C3 as stated: a deletion write with a layout does
not pass through into the output mapping; the patcher returns the empty
mapping, which does not contain the deletion entry. -/
theorem claim_C3_counterexample :
    map_id_to_values_in_write_set (fun b _ => some b)
      [(5, (WriteOp.deletion 0, some MoveLayout.u64L))] = some []
    ∧ (5, WriteOp.deletion 0) ∉
        (map_id_to_values_in_write_set (fun b _ => some b)
          [(5, (WriteOp.deletion 0, some MoveLayout.u64L))]).getD [] := by
  constructor
  · rfl
  · intro hmem
    simp [map_id_to_values_in_write_set, mivwsGo, WriteOp.is_deletion] at hmem

/-- C3 (amended): in the plain-resource write-set patcher, writes whose
write-op is a deletion and writes with no layout are omitted from the
output, while (for a write set with distinct keys) every non-deletion
write with a layout appears with its bytes replaced by the resolved
bytes, and nothing else appears; the output is a deterministic mapping in
canonical (strictly increasing) key order. -/
theorem claim_C3_write_set_patcher_amended
    (resolve : List Nat → MoveLayout → Option (List Nat))
    (ws : List (Nat × (WriteOp × Option MoveLayout)))
    (out : List (Nat × WriteOp))
    (hnd : (ws.map Prod.fst).Nodup)
    (h : map_id_to_values_in_write_set resolve ws = some out) :
    sortedKeys out
    ∧ ∀ k v, (k, v) ∈ out ↔
        ∃ op l b pb, (k, (op, some l)) ∈ ws ∧ op.is_deletion = false ∧
          op.bytes = some b ∧ resolve b l = some pb ∧
          v = op.set_bytes pb := by
  have hspec := mivwsGo_spec resolve ws [] out (by simp [sortedKeys])
    (by simp) hnd h
  refine ⟨hspec.1, ?_⟩
  intro k v
  rw [hspec.2 k v]
  simp

/-- Witness for C3: on a write set holding a deletion with layout, a
modification with layout, and a layout-less creation, the patcher emits
exactly the patched modification, in sorted key order. -/
theorem claim_C3_witness :
    sortedKeys [(3, WriteOp.modification [1, 9] 0)]
    ∧ ∀ k v, (k, v) ∈ [(3, WriteOp.modification [1, 9] 0)] ↔
        ∃ op l b pb,
          (k, (op, some l)) ∈
            [(5, (WriteOp.deletion 0, some MoveLayout.u64L)),
             (3, (WriteOp.modification [1] 0, some MoveLayout.u64L)),
             (7, (WriteOp.creation [2] 0, (none : Option MoveLayout)))]
          ∧ op.is_deletion = false ∧ op.bytes = some b ∧
          (fun b _ => some (b ++ [9])) b l = some pb ∧
          v = op.set_bytes pb :=
  claim_C3_write_set_patcher_amended (fun b _ => some (b ++ [9]))
    [(5, (WriteOp.deletion 0, some MoveLayout.u64L)),
     (3, (WriteOp.modification [1] 0, some MoveLayout.u64L)),
     (7, (WriteOp.creation [2] 0, none))]
    [(3, WriteOp.modification [1, 9] 0)] (by simp) rfl
